import Mathlib

/-!
Verification of the version-index core of the duffle repository
(`src/pkg/repo/index.go`).

The `Index` type (`map[string]map[string]string` in Go) is embedded as an
association list of association lists; the list order stands for one
possible iteration order of the underlying Go maps, and the key-uniqueness
invariant of Go maps is captured by `wfIndex`.

The semantic-version constraint engine (`github.com/Masterminds/semver`) and
the JSON codec (`encoding/json`) are external libraries that are not part of
this repository's sources; they are modelled from the specification where a
claim depends on them (see the doc comments marked "Modelled from the spec").
-/

namespace Repo

/-- Numeric value of a digit character (codepoint minus 48). -/
def digitVal (c : Char) : Nat := c.toNat - 48

/-- True when the character is one of the ASCII digits 0..9. -/
def isDigitChar (c : Char) : Bool := decide (48 ≤ c.toNat) && decide (c.toNat ≤ 57)

/-- Value of a most-significant-first digit string, accumulated from a seed. -/
def digitsValFrom (a : Nat) (l : List Char) : Nat :=
  l.foldl (fun x c => 10 * x + digitVal c) a

/-- Value of a most-significant-first digit string. -/
def digitsVal (l : List Char) : Nat := digitsValFrom 0 l

/-- A numeric identifier of a semantic version: nonempty, all digits,
no leading zero (the single digit 0 is allowed). -/
def isNumPart (l : List Char) : Bool :=
  !l.isEmpty && l.all isDigitChar && (l == ['0'] || !(l.head? == some '0'))

/-- Parse a numeric identifier to its value. -/
def parseNumPart (l : List Char) : Option Nat :=
  if isNumPart l then some (digitsVal l) else none

/-- Split a character list on the dot character; always returns at least one
group, and the groups contain no dots. -/
def splitOnDot : List Char → List (List Char)
  | [] => [[]]
  | c :: rest =>
    if c = '.' then [] :: splitOnDot rest
    else
      match splitOnDot rest with
      | [] => [[c]]
      | g :: gs => (c :: g) :: gs

/-- Rejoin dot-separated groups; left inverse of `splitOnDot`. -/
def joinDot : List (List Char) → List Char
  | [] => []
  | [g] => g
  | g :: g2 :: gs => g ++ '.' :: joinDot (g2 :: gs)

/-- A parsed semantic version (major.minor.patch).

Modelled from the spec: the Masterminds semver library is not part of this
repository; the spec describes version keys as "semantic-version-formatted"
strings, so a version is modelled as the standard three dot-separated
numeric identifiers without leading zeros. -/
structure SemVersion where
  major : Nat
  minor : Nat
  patch : Nat
deriving DecidableEq

/-- Parse a character list as a semantic version. -/
def parseVersionChars (l : List Char) : Option SemVersion :=
  match splitOnDot l with
  | [a, b, c] =>
    match parseNumPart a, parseNumPart b, parseNumPart c with
    | some x, some y, some z => some ⟨x, y, z⟩
    | _, _, _ => none
  | _ => none

/-- Modelled from the spec: `semver.NewVersion` of the Masterminds library
(not part of this repository) — parse a string as a semantic version. -/
def NewVersion (s : String) : Option SemVersion := parseVersionChars s.data

/-- Comparison operators of a version constraint. -/
inductive Cop
  | eq | ne | gt | lt | ge | le | caret | tilde
deriving DecidableEq

/-- A parsed version constraint.

Modelled from the spec: the constraint grammar supports "comparison
operators, ranges, wildcards, tilde/caret-style shorthands"; a bare version
string is the exact-match constraint, a lone star is the wildcard, and
x-placeholders in the minor or patch position give major or major.minor
range patterns. -/
inductive Constraint
  | wildcard
  | cmp (op : Cop) (v : SemVersion)
  | patMajor (ma : Nat)
  | patMinor (ma mi : Nat)
deriving DecidableEq

/-- Split an optional leading comparison operator off a constraint string. -/
def parseOpSplit (l : List Char) : Option Cop × List Char :=
  match l with
  | [] => (none, [])
  | c1 :: rest1 =>
    if c1 = '>' then
      match rest1 with
      | '=' :: r => (some .ge, r)
      | _ => (some .gt, rest1)
    else if c1 = '<' then
      match rest1 with
      | '=' :: r => (some .le, r)
      | _ => (some .lt, rest1)
    else if c1 = '!' then
      match rest1 with
      | '=' :: r => (some .ne, r)
      | _ => (none, l)
    else if c1 = '=' then (some .eq, rest1)
    else if c1 = '^' then (some .caret, rest1)
    else if c1 = '~' then (some .tilde, rest1)
    else (none, l)

/-- An x-placeholder component of a range pattern. -/
def isXPart (l : List Char) : Bool := l == ['x'] || l == ['X'] || l == ['*']

/-- Parse an x-range pattern such as 2.x or 1.2.x. -/
def parsePattern (l : List Char) : Option Constraint :=
  match splitOnDot l with
  | [a, b] =>
    match parseNumPart a with
    | some m => if isXPart b then some (.patMajor m) else none
    | none => none
  | [a, b, c] =>
    match parseNumPart a, parseNumPart b with
    | some m, some mi => if isXPart c then some (.patMinor m mi) else none
    | _, _ => none
  | _ => none

/-- Modelled from the spec: `semver.NewConstraint` of the Masterminds library
(not part of this repository) — parse a string as a version constraint.
The empty string is not a valid constraint. -/
def NewConstraint (s : String) : Option Constraint :=
  if s.data = ['*'] then some .wildcard
  else
    match parseOpSplit s.data with
    | (some op, rest) => (parseVersionChars rest).map (Constraint.cmp op)
    | (none, rest) =>
      match parseVersionChars rest with
      | some v => some (.cmp .eq v)
      | none => parsePattern rest

/-- Strict lexicographic order on semantic versions. -/
def vltB (a b : SemVersion) : Bool :=
  decide (a.major < b.major) ||
    (decide (a.major = b.major) &&
      (decide (a.minor < b.minor) ||
        (decide (a.minor = b.minor) && decide (a.patch < b.patch))))

/-- Non-strict lexicographic order on semantic versions. -/
def vleB (a b : SemVersion) : Bool := vltB a b || decide (a = b)

/-- Exclusive upper bound of a caret constraint. -/
def caretUpper (v : SemVersion) : SemVersion :=
  if v.major > 0 then ⟨v.major + 1, 0, 0⟩
  else if v.minor > 0 then ⟨0, v.minor + 1, 0⟩
  else ⟨0, 0, v.patch + 1⟩

/-- Exclusive upper bound of a tilde constraint. -/
def tildeUpper (v : SemVersion) : SemVersion := ⟨v.major, v.minor + 1, 0⟩

/-- Modelled from the spec: `Constraints.Check` of the Masterminds library
(not part of this repository) — does the version satisfy the constraint. -/
def Check (c : Constraint) (t : SemVersion) : Bool :=
  match c with
  | .wildcard => true
  | .cmp .eq v => decide (t = v)
  | .cmp .ne v => !decide (t = v)
  | .cmp .gt v => vltB v t
  | .cmp .lt v => vltB t v
  | .cmp .ge v => vleB v t
  | .cmp .le v => vleB t v
  | .cmp .caret v => vleB v t && vltB t (caretUpper v)
  | .cmp .tilde v => vleB v t && vltB t (tildeUpper v)
  | .patMajor m => decide (t.major = m)
  | .patMinor m mi => decide (t.major = m) && decide (t.minor = mi)

/-- Error kinds surfaced by `Index.Get` (`ErrNoBundleName` and
`ErrNoBundleVersion` of index.go; `invalidConstraint` stands for the
constraint-parse error returned by the semver library). -/
inductive GetError
  | noBundleName
  | noBundleVersion
  | invalidConstraint
deriving DecidableEq

deriving instance DecidableEq for Except

/-- The inner map of an `Index`: version string to digest
(`map[string]string` in Go), embedded as an association list whose order
stands for one possible Go map iteration order. -/
abbrev VersionMap := List (String × String)

/-- `Index` of index.go (`map[string]map[string]string`): bundle name to
version map, embedded as an association list. -/
abbrev Index := List (String × VersionMap)

/-- Go map lookup on an association list (first matching key). -/
def lookupKey {α : Type} (k : String) : List (String × α) → Option α
  | [] => none
  | (k2, v) :: rest => if k2 = k then some v else lookupKey k rest

/-- The Go map assignment `tags[version] = digest`: overwrite the first
occurrence of the key in place, or append the new entry. -/
def addVersion (vm : VersionMap) (version digest : String) : VersionMap :=
  match vm with
  | [] => [(version, digest)]
  | (v, d) :: rest =>
    if v = version then (v, digest) :: rest
    else (v, d) :: addVersion rest version digest

/-- `Index.Add` of index.go: if the name is known, set version to digest in
its version map, otherwise create the singleton version map for the name. -/
def Index.Add (i : Index) (name version digest : String) : Index :=
  match i with
  | [] => [(name, [(version, digest)])]
  | (n, vm) :: rest =>
    if n = name then (n, addVersion vm version digest) :: rest
    else (n, vm) :: Index.Add rest name version digest

/-- The resolution loop of `Index.Get`: scan the version map in iteration
order, skip keys that do not parse as semantic versions, and return the
digest of the first version satisfying the constraint. -/
def findFirstMatch (c : Constraint) : VersionMap → Option String
  | [] => none
  | (ver, digest) :: rest =>
    match NewVersion ver with
    | none => findFirstMatch c rest
    | some t => if Check c t then some digest else findFirstMatch c rest

/-- The constraint used by `Index.Get`: the empty version string is replaced
by the wildcard constraint, any other string is parsed as written. -/
def constraintOf (version : String) : Option Constraint :=
  if version = "" then NewConstraint "*" else NewConstraint version

/-- `Index.Get` of index.go. -/
def Index.Get (i : Index) (name version : String) : Except GetError String :=
  match lookupKey name i with
  | none => .error .noBundleName
  | some vs =>
    if vs = [] then .error .noBundleVersion
    else
      match constraintOf version with
      | none => .error .invalidConstraint
      | some c =>
        match findFirstMatch c vs with
        | some digest => .ok digest
        | none => .error .noBundleVersion

/-- `Index.Has` of index.go: true when `Get` returns no error. -/
def Index.Has (i : Index) (name version : String) : Bool :=
  match Index.Get i name version with
  | .ok _ => true
  | .error _ => false

/-- The inner loop of `Index.Merge`: fold one source version map into the
destination, adding each entry the destination does not `Has`. -/
def mergeVM (dst : Index) (name : String) : VersionMap → Index
  | [] => dst
  | (v, dg) :: rest =>
    mergeVM (if Index.Has dst name v then dst else Index.Add dst name v dg) name rest

/-- `Index.Merge` of index.go: fold every source entry into the destination,
adding those the destination does not `Has`. -/
def Index.Merge (dst : Index) : Index → Index
  | [] => dst
  | (n, vm) :: rest => Index.Merge (mergeVM dst n vm) rest

/-- Stored digest for a (name, version) pair, reading the maps directly. -/
def lookupDigest (i : Index) (name version : String) : Option String :=
  match lookupKey name i with
  | none => none
  | some vm => lookupKey version vm

/-- Keys of a version map. -/
def vmKeys (vm : VersionMap) : List String := vm.map Prod.fst

/-- Names of an index. -/
def idxNames (i : Index) : List String := i.map Prod.fst

/-- Key uniqueness of the inner Go map. -/
def wfVM (vm : VersionMap) : Prop := (vmKeys vm).Nodup

/-- Key uniqueness of both levels of the Go map of maps. -/
def wfIndex (i : Index) : Prop := (idxNames i).Nodup ∧ ∀ p ∈ i, wfVM p.2

instance (vm : VersionMap) : Decidable (wfVM vm) := by
  unfold wfVM; infer_instance

instance (i : Index) : Decidable (wfIndex i) := by
  unfold wfIndex; infer_instance

/-- A JSON value.

Modelled from the spec: the byte-level JSON codec is `encoding/json`, not
part of this repository; the on-disk format is modelled at the level of the
JSON value tree, and a byte stream is an optional value where `none` stands
for the empty stream (immediate end-of-input). -/
inductive JValue
  | str (s : String)
  | num (n : Int)
  | boolean (b : Bool)
  | null
  | arr (xs : List JValue)
  | obj (fields : List (String × JValue))

/-- The decode failure of `loadIndex` (a JSON value of the wrong shape). -/
inductive DecodeError
  | decodeFailure
deriving DecidableEq

/-- The `json.MarshalIndent` step of `Index.WriteFile`: the index as a JSON
object of objects of strings. -/
def marshalIndex (i : Index) : JValue :=
  .obj (i.map fun p => (p.1, .obj (p.2.map fun q => (q.1, JValue.str q.2))))

/-- Decode the fields of an inner JSON object into a version map; every
field must be a string, later duplicate keys overwrite earlier ones. -/
def vmOfFields (acc : VersionMap) : List (String × JValue) → Option VersionMap
  | [] => some acc
  | (k, v) :: rest =>
    match v with
    | .str s => vmOfFields (addVersion acc k s) rest
    | _ => none

/-- Go map assignment at the outer level: replace the version map of the
first occurrence of the name, or append the new entry. -/
def setName (i : Index) (n : String) (vm : VersionMap) : Index :=
  match i with
  | [] => [(n, vm)]
  | (n0, vm0) :: rest =>
    if n0 = n then (n0, vm) :: rest else (n0, vm0) :: setName rest n vm

/-- Decode the fields of the outer JSON object into an index; every field
must itself be an object of strings. -/
def indexOfFields (acc : Index) : List (String × JValue) → Option Index
  | [] => some acc
  | (n, v) :: rest =>
    match v with
    | .obj fs =>
      match vmOfFields [] fs with
      | some vm => indexOfFields (setName acc n vm) rest
      | none => none
    | _ => none

/-- `loadIndex` of index.go: decode a JSON byte stream into an index, where
an empty stream (immediate end-of-input, the `io.EOF` case) is not an error
and yields the empty index. -/
def loadIndex (stream : Option JValue) : Except DecodeError Index :=
  match stream with
  | none => .ok []
  | some (.obj fs) =>
    match indexOfFields [] fs with
    | some i => .ok i
    | none => .error .decodeFailure
  | some _ => .error .decodeFailure

/-! ### Canonicity of numeric identifiers -/

theorem digitsValFrom_nil (a : Nat) : digitsValFrom a [] = a := rfl

theorem digitsValFrom_cons (a : Nat) (c : Char) (t : List Char) :
    digitsValFrom a (c :: t) = digitsValFrom (10 * a + digitVal c) t := rfl

theorem digitsValFrom_eq (l : List Char) :
    ∀ a : Nat, digitsValFrom a l = a * 10 ^ l.length + digitsVal l := by
  induction l with
  | nil => intro a; simp [digitsValFrom_nil, digitsVal]
  | cons c t ih =>
    intro a
    rw [digitsValFrom_cons, ih]
    have h2 : digitsVal (c :: t) = digitVal c * 10 ^ t.length + digitsVal t := by
      have : digitsVal (c :: t) = digitsValFrom (digitVal c) t := by
        simp [digitsVal, digitsValFrom_cons]
      rw [this, ih]
    rw [h2]
    simp [List.length_cons, pow_succ]
    ring

theorem digitsVal_cons (c : Char) (t : List Char) :
    digitsVal (c :: t) = digitVal c * 10 ^ t.length + digitsVal t := by
  have : digitsVal (c :: t) = digitsValFrom (digitVal c) t := by
    simp [digitsVal, digitsValFrom_cons]
  rw [this, digitsValFrom_eq]

theorem digitVal_le_nine (c : Char) (h : isDigitChar c = true) : digitVal c ≤ 9 := by
  simp only [isDigitChar, Bool.and_eq_true, decide_eq_true_eq] at h
  unfold digitVal
  omega

theorem digitsVal_lt (l : List Char) (h : ∀ c ∈ l, isDigitChar c = true) :
    digitsVal l < 10 ^ l.length := by
  induction l with
  | nil => simp [digitsVal, digitsValFrom]
  | cons c t ih =>
    have hd : digitVal c ≤ 9 := digitVal_le_nine c (h c (List.mem_cons_self c t))
    have ht : digitsVal t < 10 ^ t.length := ih fun x hx => h x (List.mem_cons_of_mem c hx)
    rw [digitsVal_cons]
    calc digitVal c * 10 ^ t.length + digitsVal t
        < digitVal c * 10 ^ t.length + 10 ^ t.length := Nat.add_lt_add_left ht _
      _ = (digitVal c + 1) * 10 ^ t.length := by ring
      _ ≤ 10 * 10 ^ t.length := Nat.mul_le_mul_right _ (by omega)
      _ = 10 ^ (c :: t).length := by rw [List.length_cons]; ring

theorem digitsVal_head_ge (c : Char) (t : List Char) (h : 1 ≤ digitVal c) :
    10 ^ t.length ≤ digitsVal (c :: t) := by
  rw [digitsVal_cons]
  calc 10 ^ t.length = 1 * 10 ^ t.length := (one_mul _).symm
    _ ≤ digitVal c * 10 ^ t.length := Nat.mul_le_mul_right _ h
    _ ≤ digitVal c * 10 ^ t.length + digitsVal t := Nat.le_add_right _ _

theorem char_toNat_inj (c1 c2 : Char) (h : c1.toNat = c2.toNat) : c1 = c2 :=
  Char.ext (UInt32.toNat.inj h)

theorem digit_char_eq (c1 c2 : Char) (h1 : isDigitChar c1 = true)
    (h2 : isDigitChar c2 = true) (h : digitVal c1 = digitVal c2) : c1 = c2 := by
  simp only [isDigitChar, Bool.and_eq_true, decide_eq_true_eq] at h1 h2
  unfold digitVal at h
  exact char_toNat_inj c1 c2 (by omega)

theorem digits_inj_len (l1 : List Char) :
    ∀ l2 : List Char, l1.length = l2.length →
      (∀ c ∈ l1, isDigitChar c = true) → (∀ c ∈ l2, isDigitChar c = true) →
      digitsVal l1 = digitsVal l2 → l1 = l2 := by
  induction l1 with
  | nil =>
    intro l2 hlen _ _ _
    cases l2 with
    | nil => rfl
    | cons c t => simp at hlen
  | cons c1 t1 ih =>
    intro l2 hlen hd1 hd2 hv
    cases l2 with
    | nil => simp at hlen
    | cons c2 t2 =>
      have hlt : t1.length = t2.length := by simpa using hlen
      rw [digitsVal_cons, digitsVal_cons, hlt] at hv
      have hv1 : digitsVal t1 < 10 ^ t2.length := by
        rw [← hlt]
        exact digitsVal_lt t1 fun x hx => hd1 x (List.mem_cons_of_mem c1 hx)
      have hv2 : digitsVal t2 < 10 ^ t2.length := by
        exact digitsVal_lt t2 fun x hx => hd2 x (List.mem_cons_of_mem c2 hx)
      have hK : 0 < 10 ^ t2.length := Nat.pos_pow_of_pos _ (by norm_num)
      have hdd : digitVal c1 = digitVal c2 := by
        have e1 : (10 ^ t2.length * digitVal c1 + digitsVal t1) / 10 ^ t2.length
            = digitVal c1 := by
          rw [Nat.mul_add_div hK, Nat.div_eq_of_lt hv1, Nat.add_zero]
        have e2 : (10 ^ t2.length * digitVal c2 + digitsVal t2) / 10 ^ t2.length
            = digitVal c2 := by
          rw [Nat.mul_add_div hK, Nat.div_eq_of_lt hv2, Nat.add_zero]
        rw [← e1, ← e2]
        congr 1
        calc 10 ^ t2.length * digitVal c1 + digitsVal t1
            = digitVal c1 * 10 ^ t2.length + digitsVal t1 := by ring
          _ = digitVal c2 * 10 ^ t2.length + digitsVal t2 := hv
          _ = 10 ^ t2.length * digitVal c2 + digitsVal t2 := by ring
      have hvv : digitsVal t1 = digitsVal t2 := by
        rw [hdd] at hv
        omega
      have hc : c1 = c2 :=
        digit_char_eq c1 c2 (hd1 c1 (List.mem_cons_self c1 t1))
          (hd2 c2 (List.mem_cons_self c2 t2)) hdd
      have ht : t1 = t2 :=
        ih t2 hlt (fun x hx => hd1 x (List.mem_cons_of_mem c1 hx))
          (fun x hx => hd2 x (List.mem_cons_of_mem c2 hx)) hvv
      rw [hc, ht]

theorem isNumPart_elim (l : List Char) (h : isNumPart l = true) :
    l ≠ [] ∧ (∀ c ∈ l, isDigitChar c = true) ∧ (l = ['0'] ∨ l.head? ≠ some '0') := by
  simp only [isNumPart, Bool.and_eq_true, Bool.or_eq_true, Bool.not_eq_true',
    List.all_eq_true, beq_iff_eq, beq_eq_false_iff_ne, ne_eq] at h
  obtain ⟨⟨hni, hdig⟩, hz⟩ := h
  refine ⟨?_, hdig, ?_⟩
  · intro hnil; rw [hnil] at hni; simp at hni
  · rcases hz with h0 | hh
    · exact Or.inl h0
    · exact Or.inr hh

theorem digitVal_pos (c : Char) (h : isDigitChar c = true) (hne : c ≠ '0') :
    1 ≤ digitVal c := by
  simp only [isDigitChar, Bool.and_eq_true, decide_eq_true_eq] at h
  by_contra hlt
  push_neg at hlt
  have h48 : c.toNat = 48 := by unfold digitVal at hlt; omega
  exact hne (char_toNat_inj c '0' (by rw [h48]; rfl))

theorem numPart_zero (l : List Char) (h : isNumPart l = true)
    (hv : digitsVal l = 0) : l = ['0'] := by
  obtain ⟨hne, hdig, hz⟩ := isNumPart_elim l h
  rcases hz with h0 | hh
  · exact h0
  · cases l with
    | nil => exact absurd rfl hne
    | cons c t =>
      have hc0 : c ≠ '0' := by
        intro hc; rw [hc] at hh; simp at hh
      have hpos : 1 ≤ digitVal c :=
        digitVal_pos c (hdig c (List.mem_cons_self c t)) hc0
      have hge : 10 ^ t.length ≤ digitsVal (c :: t) := digitsVal_head_ge c t hpos
      have : 0 < 10 ^ t.length := Nat.pos_pow_of_pos _ (by norm_num)
      omega

theorem numPart_inj (l1 l2 : List Char) (h1 : isNumPart l1 = true)
    (h2 : isNumPart l2 = true) (hv : digitsVal l1 = digitsVal l2) : l1 = l2 := by
  by_cases hz : digitsVal l1 = 0
  · rw [numPart_zero l1 h1 hz, numPart_zero l2 h2 (by omega)]
  · obtain ⟨hne1, hd1, hz1⟩ := isNumPart_elim l1 h1
    obtain ⟨hne2, hd2, hz2⟩ := isNumPart_elim l2 h2
    have hl10 : l1 ≠ ['0'] := by
      intro hl; rw [hl] at hz; exact hz rfl
    have hl20 : l2 ≠ ['0'] := by
      intro hl; rw [hl] at hv; exact hz (by simpa [digitsVal, digitsValFrom, digitVal] using hv)
    cases l1 with
    | nil => exact absurd rfl hne1
    | cons c1 t1 =>
      cases l2 with
      | nil => exact absurd rfl hne2
      | cons c2 t2 =>
        have hc1 : c1 ≠ '0' := by
          rcases hz1 with h0 | hh
          · exact absurd h0 hl10
          · intro hc; rw [hc] at hh; simp at hh
        have hc2 : c2 ≠ '0' := by
          rcases hz2 with h0 | hh
          · exact absurd h0 hl20
          · intro hc; rw [hc] at hh; simp at hh
        have hp1 : 1 ≤ digitVal c1 := digitVal_pos c1 (hd1 c1 (List.mem_cons_self c1 t1)) hc1
        have hp2 : 1 ≤ digitVal c2 := digitVal_pos c2 (hd2 c2 (List.mem_cons_self c2 t2)) hc2
        rcases Nat.lt_trichotomy t1.length t2.length with hlt | heq | hgt
        · exfalso
          have ha : digitsVal (c1 :: t1) < 10 ^ (c1 :: t1).length := digitsVal_lt _ hd1
          have hb : 10 ^ (c1 :: t1).length ≤ 10 ^ t2.length := by
            apply Nat.pow_le_pow_right (by norm_num)
            simp [List.length_cons]; omega
          have hc : 10 ^ t2.length ≤ digitsVal (c2 :: t2) := digitsVal_head_ge c2 t2 hp2
          omega
        · exact digits_inj_len (c1 :: t1) (c2 :: t2) (by simp [heq]) hd1 hd2 hv
        · exfalso
          have ha : digitsVal (c2 :: t2) < 10 ^ (c2 :: t2).length := digitsVal_lt _ hd2
          have hb : 10 ^ (c2 :: t2).length ≤ 10 ^ t1.length := by
            apply Nat.pow_le_pow_right (by norm_num)
            simp [List.length_cons]; omega
          have hc : 10 ^ t1.length ≤ digitsVal (c1 :: t1) := digitsVal_head_ge c1 t1 hp1
          omega

/-! ### Version strings parse injectively -/

theorem splitOnDot_ne_nil (l : List Char) : splitOnDot l ≠ [] := by
  cases l with
  | nil => simp [splitOnDot]
  | cons c rest =>
    by_cases hc : c = '.'
    · simp [splitOnDot, hc]
    · simp only [splitOnDot, if_neg hc]
      cases splitOnDot rest with
      | nil => simp
      | cons g gs => simp

theorem joinDot_splitOnDot (l : List Char) : joinDot (splitOnDot l) = l := by
  induction l with
  | nil => rfl
  | cons c rest ih =>
    by_cases hc : c = '.'
    · subst hc
      have hstep : splitOnDot ('.' :: rest) = [] :: splitOnDot rest := by
        simp [splitOnDot]
      rw [hstep]
      cases hsp : splitOnDot rest with
      | nil => exact absurd hsp (splitOnDot_ne_nil rest)
      | cons g gs =>
        rw [hsp] at ih
        show [] ++ '.' :: joinDot (g :: gs) = '.' :: rest
        rw [ih]
        rfl
    · cases hsp : splitOnDot rest with
      | nil => exact absurd hsp (splitOnDot_ne_nil rest)
      | cons g gs =>
        have hstep : splitOnDot (c :: rest) = (c :: g) :: gs := by
          simp only [splitOnDot, if_neg hc, hsp]
        rw [hstep]
        rw [hsp] at ih
        cases gs with
        | nil =>
          show c :: g = c :: rest
          have : joinDot [g] = g := rfl
          rw [this] at ih
          rw [ih]
        | cons g2 gs2 =>
          show (c :: g) ++ '.' :: joinDot (g2 :: gs2) = c :: rest
          rw [← ih]
          rfl

theorem parseNumPart_elim (l : List Char) (n : Nat) (h : parseNumPart l = some n) :
    isNumPart l = true ∧ digitsVal l = n := by
  unfold parseNumPart at h
  split at h
  · exact ⟨by assumption, by injection h⟩
  · exact absurd h (by simp)

theorem parseVersionChars_elim (l : List Char) (v : SemVersion)
    (h : parseVersionChars l = some v) :
    ∃ a b c, splitOnDot l = [a, b, c] ∧
      isNumPart a = true ∧ isNumPart b = true ∧ isNumPart c = true ∧
      digitsVal a = v.major ∧ digitsVal b = v.minor ∧ digitsVal c = v.patch := by
  unfold parseVersionChars at h
  split at h
  next a b c heq =>
    refine ⟨a, b, c, heq, ?_⟩
    split at h
    next x y z hx hy hz =>
      obtain ⟨ha1, ha2⟩ := parseNumPart_elim a x hx
      obtain ⟨hb1, hb2⟩ := parseNumPart_elim b y hy
      obtain ⟨hc1, hc2⟩ := parseNumPart_elim c z hz
      injection h with h
      rw [← h]
      exact ⟨ha1, hb1, hc1, ha2, hb2, hc2⟩
    next => exact absurd h (by simp)
  next => exact absurd h (by simp)

theorem parseVersionChars_inj (l1 l2 : List Char) (v : SemVersion)
    (h1 : parseVersionChars l1 = some v) (h2 : parseVersionChars l2 = some v) :
    l1 = l2 := by
  obtain ⟨a1, b1, c1, hsp1, hna1, hnb1, hnc1, hva1, hvb1, hvc1⟩ :=
    parseVersionChars_elim l1 v h1
  obtain ⟨a2, b2, c2, hsp2, hna2, hnb2, hnc2, hva2, hvb2, hvc2⟩ :=
    parseVersionChars_elim l2 v h2
  have ha : a1 = a2 := numPart_inj a1 a2 hna1 hna2 (by rw [hva1, hva2])
  have hb : b1 = b2 := numPart_inj b1 b2 hnb1 hnb2 (by rw [hvb1, hvb2])
  have hc : c1 = c2 := numPart_inj c1 c2 hnc1 hnc2 (by rw [hvc1, hvc2])
  calc l1 = joinDot (splitOnDot l1) := (joinDot_splitOnDot l1).symm
    _ = joinDot [a1, b1, c1] := by rw [hsp1]
    _ = joinDot [a2, b2, c2] := by rw [ha, hb, hc]
    _ = joinDot (splitOnDot l2) := by rw [hsp2]
    _ = l2 := joinDot_splitOnDot l2

theorem NewVersion_inj (s1 s2 : String) (v : SemVersion)
    (h1 : NewVersion s1 = some v) (h2 : NewVersion s2 = some v) : s1 = s2 := by
  have hd := parseVersionChars_inj s1.data s2.data v h1 h2
  cases s1; cases s2; exact congrArg String.mk hd

theorem NewVersion_ne_empty (s : String) (v : SemVersion)
    (h : NewVersion s = some v) : s ≠ "" := by
  intro hs
  have hnone : NewVersion "" = none := by decide
  rw [hs, hnone] at h
  exact Option.noConfusion h

theorem version_head_digit (l : List Char) (v : SemVersion)
    (h : parseVersionChars l = some v) :
    ∃ c t, l = c :: t ∧ isDigitChar c = true := by
  obtain ⟨a, b, c, hsp, hna, _, _, _, _, _⟩ := parseVersionChars_elim l v h
  obtain ⟨hne, hdig, _⟩ := isNumPart_elim a hna
  have hl : l = a ++ '.' :: (b ++ '.' :: c) := by
    have hj := joinDot_splitOnDot l
    rw [hsp] at hj
    exact hj.symm
  cases a with
  | nil => exact absurd rfl hne
  | cons ca ta =>
    exact ⟨ca, ta ++ '.' :: (b ++ '.' :: c), by rw [hl]; rfl,
      hdig ca (List.mem_cons_self _ _)⟩

theorem parseOpSplit_digit (c : Char) (t : List Char) (h : isDigitChar c = true) :
    parseOpSplit (c :: t) = (none, c :: t) := by
  have h1 : c ≠ '>' := fun hc => absurd (hc ▸ h) (by decide)
  have h2 : c ≠ '<' := fun hc => absurd (hc ▸ h) (by decide)
  have h3 : c ≠ '!' := fun hc => absurd (hc ▸ h) (by decide)
  have h4 : c ≠ '=' := fun hc => absurd (hc ▸ h) (by decide)
  have h5 : c ≠ '^' := fun hc => absurd (hc ▸ h) (by decide)
  have h6 : c ≠ '~' := fun hc => absurd (hc ▸ h) (by decide)
  simp [parseOpSplit, h1, h2, h3, h4, h5, h6]

theorem constraint_of_version (s : String) (v : SemVersion)
    (h : NewVersion s = some v) : NewConstraint s = some (.cmp .eq v) := by
  obtain ⟨c, t, hl, hdig⟩ := version_head_digit s.data v h
  have hns : s.data ≠ ['*'] := by
    intro hstar
    have hv : parseVersionChars ['*'] = some v := by rw [← hstar]; exact h
    have hnone : parseVersionChars ['*'] = none := by decide
    rw [hnone] at hv
    exact Option.noConfusion hv
  unfold NewConstraint
  rw [if_neg hns, hl, parseOpSplit_digit c t hdig]
  have hv : parseVersionChars (c :: t) = some v := by rw [← hl]; exact h
  simp [hv]

/-! ### Map lookup and insertion -/

theorem mem_of_lookupKey {α : Type} (k : String) (l : List (String × α)) (x : α)
    (h : lookupKey k l = some x) : (k, x) ∈ l := by
  induction l with
  | nil => exact absurd h (by simp [lookupKey])
  | cons p rest ih =>
    obtain ⟨k2, v⟩ := p
    unfold lookupKey at h
    by_cases hk : k2 = k
    · rw [if_pos hk] at h
      injection h with h
      rw [← hk, ← h]
      exact List.mem_cons_self _ _
    · rw [if_neg hk] at h
      exact List.mem_cons_of_mem _ (ih h)

theorem lookupKey_ne_nil {α : Type} (k : String) (l : List (String × α)) (x : α)
    (h : lookupKey k l = some x) : l ≠ [] := by
  intro hl
  rw [hl] at h
  exact absurd h (by simp [lookupKey])

theorem lookupKey_addVersion_self (vm : VersionMap) (v d : String) :
    lookupKey v (addVersion vm v d) = some d := by
  induction vm with
  | nil => simp [addVersion, lookupKey]
  | cons p rest ih =>
    obtain ⟨k, x⟩ := p
    unfold addVersion
    by_cases hk : k = v
    · rw [if_pos hk]
      simp [lookupKey, hk]
    · rw [if_neg hk]
      simp [lookupKey, hk, ih]

theorem lookupKey_addVersion_ne (vm : VersionMap) (v d k : String) (hk : k ≠ v) :
    lookupKey k (addVersion vm v d) = lookupKey k vm := by
  have hvk : v ≠ k := fun h => hk h.symm
  induction vm with
  | nil => simp [addVersion, lookupKey, hvk]
  | cons p rest ih =>
    obtain ⟨k0, x⟩ := p
    unfold addVersion
    by_cases hk0 : k0 = v
    · rw [if_pos hk0]
      have : k0 ≠ k := by rw [hk0]; exact fun h => hk h.symm
      simp [lookupKey, this]
    · rw [if_neg hk0]
      by_cases hkk : k0 = k
      · simp [lookupKey, hkk]
      · simp [lookupKey, hkk, ih]

theorem mem_addVersion (vm : VersionMap) (v d k : String) (x : String)
    (h : (k, x) ∈ vm) : ∃ y, (k, y) ∈ addVersion vm v d := by
  induction vm with
  | nil => exact absurd h (by simp)
  | cons p rest ih =>
    obtain ⟨k0, x0⟩ := p
    unfold addVersion
    by_cases hk0 : k0 = v
    · rw [if_pos hk0]
      rcases List.mem_cons.mp h with hh | hh
      · injection hh with hh1 hh2
        exact ⟨d, by rw [← hh1]; exact List.mem_cons_self _ _⟩
      · exact ⟨x, List.mem_cons_of_mem _ hh⟩
    · rw [if_neg hk0]
      rcases List.mem_cons.mp h with hh | hh
      · exact ⟨x, by rw [hh]; exact List.mem_cons_self _ _⟩
      · obtain ⟨y, hy⟩ := ih hh
        exact ⟨y, List.mem_cons_of_mem _ hy⟩

theorem addVersion_ne_nil (vm : VersionMap) (v d : String) :
    addVersion vm v d ≠ [] := by
  cases vm with
  | nil => simp [addVersion]
  | cons p rest =>
    obtain ⟨k, x⟩ := p
    unfold addVersion
    by_cases hk : k = v
    · rw [if_pos hk]; simp
    · rw [if_neg hk]; simp

theorem addVersion_id (vm : VersionMap) (v d : String)
    (h : lookupKey v vm = some d) : addVersion vm v d = vm := by
  induction vm with
  | nil => exact absurd h (by simp [lookupKey])
  | cons p rest ih =>
    obtain ⟨k, x⟩ := p
    unfold addVersion
    unfold lookupKey at h
    by_cases hk : k = v
    · rw [if_pos hk]
      rw [if_pos hk] at h
      injection h with h
      rw [h]
    · rw [if_neg hk]
      rw [if_neg hk] at h
      rw [ih h]

theorem lookupKey_Add_found (i : Index) (name v d : String) (vm : VersionMap)
    (h : lookupKey name i = some vm) :
    lookupKey name (Index.Add i name v d) = some (addVersion vm v d) := by
  induction i with
  | nil => exact absurd h (by simp [lookupKey])
  | cons p rest ih =>
    obtain ⟨n0, vm0⟩ := p
    unfold Index.Add
    unfold lookupKey at h
    by_cases hn : n0 = name
    · rw [if_pos hn]
      rw [if_pos hn] at h
      injection h with h
      simp [lookupKey, hn, h]
    · rw [if_neg hn]
      rw [if_neg hn] at h
      simp [lookupKey, hn, ih h]

theorem lookupKey_Add_new (i : Index) (name v d : String)
    (h : lookupKey name i = none) :
    lookupKey name (Index.Add i name v d) = some [(v, d)] := by
  induction i with
  | nil => simp [Index.Add, lookupKey]
  | cons p rest ih =>
    obtain ⟨n0, vm0⟩ := p
    unfold Index.Add
    unfold lookupKey at h
    by_cases hn : n0 = name
    · rw [if_pos hn] at h
      exact absurd h (by simp)
    · rw [if_neg hn] at h
      rw [if_neg hn]
      simp [lookupKey, hn, ih h]

theorem lookupKey_Add_other (i : Index) (name v d n2 : String) (hn : n2 ≠ name) :
    lookupKey n2 (Index.Add i name v d) = lookupKey n2 i := by
  have hnn : name ≠ n2 := fun h => hn h.symm
  induction i with
  | nil => simp [Index.Add, lookupKey, hnn]
  | cons p rest ih =>
    obtain ⟨n0, vm0⟩ := p
    unfold Index.Add
    by_cases h0 : n0 = name
    · rw [if_pos h0]
      have : n0 ≠ n2 := by rw [h0]; exact fun h => hn h.symm
      simp [lookupKey, this]
    · rw [if_neg h0]
      by_cases h2 : n0 = n2
      · simp [lookupKey, h2]
      · simp [lookupKey, h2, ih]

theorem lookupDigest_Add_self (i : Index) (n v d : String) :
    lookupDigest (Index.Add i n v d) n v = some d := by
  unfold lookupDigest
  cases hl : lookupKey n i with
  | none => rw [lookupKey_Add_new i n v d hl]; simp [lookupKey]
  | some vm =>
    rw [lookupKey_Add_found i n v d vm hl]
    exact lookupKey_addVersion_self vm v d

theorem lookupDigest_Add_ne (i : Index) (n v d n2 v2 : String)
    (h : ¬(n2 = n ∧ v2 = v)) :
    lookupDigest (Index.Add i n v d) n2 v2 = lookupDigest i n2 v2 := by
  unfold lookupDigest
  by_cases hn : n2 = n
  · have hv : v2 ≠ v := fun hv => h ⟨hn, hv⟩
    have hvv : v ≠ v2 := fun hh => hv hh.symm
    rw [hn]
    cases hl : lookupKey n i with
    | none =>
      rw [lookupKey_Add_new i n v d hl]
      simp [lookupKey, hvv]
    | some vm =>
      rw [lookupKey_Add_found i n v d vm hl]
      show lookupKey v2 (addVersion vm v d) = lookupKey v2 vm
      exact lookupKey_addVersion_ne vm v d v2 hv
  · rw [lookupKey_Add_other i n v d n2 hn]

theorem Add_id (i : Index) (n v d : String)
    (h : lookupDigest i n v = some d) : Index.Add i n v d = i := by
  unfold lookupDigest at h
  induction i with
  | nil => simp [lookupKey] at h
  | cons p rest ih =>
    obtain ⟨n0, vm0⟩ := p
    unfold Index.Add
    by_cases hn : n0 = n
    · rw [if_pos hn]
      have hvm : lookupKey v vm0 = some d := by
        have : lookupKey n ((n0, vm0) :: rest) = some vm0 := by
          simp [lookupKey, hn]
        rw [this] at h
        exact h
      rw [addVersion_id vm0 v d hvm]
    · rw [if_neg hn]
      have hrest : (match lookupKey n rest with
          | none => none
          | some vm => lookupKey v vm) = some d := by
        have : lookupKey n ((n0, vm0) :: rest) = lookupKey n rest := by
          simp [lookupKey, hn]
        rw [this] at h
        exact h
      rw [ih hrest]

/-! ### Resolution: Get and Has -/

theorem ffm_mem (c : Constraint) (vm : VersionMap) (d : String)
    (h : findFirstMatch c vm = some d) :
    ∃ k t, (k, d) ∈ vm ∧ NewVersion k = some t ∧ Check c t = true := by
  induction vm with
  | nil => exact absurd h (by simp [findFirstMatch])
  | cons p rest ih =>
    obtain ⟨ver, dg⟩ := p
    unfold findFirstMatch at h
    split at h
    · obtain ⟨k, t, hm, hp, hc⟩ := ih h
      exact ⟨k, t, List.mem_cons_of_mem _ hm, hp, hc⟩
    · next t hv =>
      split at h
      · next hc =>
        injection h with h
        exact ⟨ver, t, by rw [← h]; exact List.mem_cons_self _ _, hv, hc⟩
      · obtain ⟨k, t2, hm, hp, hc2⟩ := ih h
        exact ⟨k, t2, List.mem_cons_of_mem _ hm, hp, hc2⟩

theorem ffm_isSome (c : Constraint) (vm : VersionMap) (k dx : String)
    (t : SemVersion) (hm : (k, dx) ∈ vm) (hp : NewVersion k = some t)
    (hc : Check c t = true) : ∃ d2, findFirstMatch c vm = some d2 := by
  induction vm with
  | nil => exact absurd hm (by simp)
  | cons p rest ih =>
    obtain ⟨ver, dg⟩ := p
    unfold findFirstMatch
    rcases List.mem_cons.mp hm with hh | hh
    · injection hh with hh1 hh2
      refine ⟨dg, ?_⟩
      rw [← hh1]
      simp only [hp, hc, if_true]
    · cases hv : NewVersion ver with
      | none =>
        simp only [hv]
        exact ih hh
      | some t0 =>
        simp only [hv]
        by_cases hc0 : Check c t0 = true
        · rw [if_pos hc0]
          exact ⟨dg, rfl⟩
        · rw [if_neg hc0]
          exact ih hh

theorem get_ok_elim (i : Index) (n v d : String) (h : Index.Get i n v = .ok d) :
    ∃ vm c, lookupKey n i = some vm ∧ constraintOf v = some c ∧
      findFirstMatch c vm = some d := by
  unfold Index.Get at h
  cases hl : lookupKey n i with
  | none =>
    simp only [hl] at h
    exact absurd h (by simp)
  | some vm =>
    simp only [hl] at h
    by_cases hvm : vm = []
    · rw [if_pos hvm] at h
      exact absurd h (by simp)
    · rw [if_neg hvm] at h
      cases hc : constraintOf v with
      | none =>
        simp only [hc] at h
        exact absurd h (by simp)
      | some c =>
        simp only [hc] at h
        cases hf : findFirstMatch c vm with
        | none =>
          simp only [hf] at h
          exact absurd h (by simp)
        | some dg =>
          simp only [hf] at h
          injection h with h
          exact ⟨vm, c, rfl, rfl, hf.trans (by rw [h])⟩

theorem get_ok_intro (i : Index) (n v d : String) (vm : VersionMap)
    (c : Constraint) (hl : lookupKey n i = some vm) (hc : constraintOf v = some c)
    (hf : findFirstMatch c vm = some d) : Index.Get i n v = .ok d := by
  have hvm : vm ≠ [] := by
    intro hnil
    rw [hnil] at hf
    exact absurd hf (by simp [findFirstMatch])
  unfold Index.Get
  simp only [hl, if_neg hvm, hc, hf]

theorem has_iff_ok (i : Index) (n v : String) :
    Index.Has i n v = true ↔ ∃ d, Index.Get i n v = .ok d := by
  unfold Index.Has
  cases hg : Index.Get i n v with
  | ok d => simp
  | error e => simp

theorem has_false_invalid (i : Index) (n v : String) (hne : v ≠ "")
    (hc : NewConstraint v = none) : Index.Has i n v = false := by
  have : ∀ d, Index.Get i n v ≠ .ok d := by
    intro d hg
    obtain ⟨vm, c, _, hco, _⟩ := get_ok_elim i n v d hg
    unfold constraintOf at hco
    rw [if_neg hne, hc] at hco
    exact Option.noConfusion hco
  unfold Index.Has
  cases hg : Index.Get i n v with
  | ok d => exact absurd hg (this d)
  | error e => rfl

theorem constraintOf_of_version (v : String) (t : SemVersion)
    (h : NewVersion v = some t) : constraintOf v = some (.cmp .eq t) := by
  unfold constraintOf
  rw [if_neg (NewVersion_ne_empty v t h)]
  exact constraint_of_version v t h

theorem check_exact_self (t : SemVersion) : Check (.cmp .eq t) t = true := by
  simp [Check]

theorem valid_has (i : Index) (n v d : String) (t : SemVersion)
    (hp : NewVersion v = some t) (hd : lookupDigest i n v = some d) :
    Index.Has i n v = true := by
  unfold lookupDigest at hd
  cases hl : lookupKey n i with
  | none => rw [hl] at hd; exact absurd hd (by simp)
  | some vm =>
    rw [hl] at hd
    have hm : (v, d) ∈ vm := mem_of_lookupKey v vm d hd
    obtain ⟨d2, hf⟩ := ffm_isSome (.cmp .eq t) vm v d t hm hp (check_exact_self t)
    rw [has_iff_ok]
    exact ⟨d2, get_ok_intro i n v d2 vm (.cmp .eq t) hl (constraintOf_of_version v t hp) hf⟩

theorem has_mono_add (i : Index) (n v n2 v2 d2 : String)
    (h : Index.Has i n v = true) : Index.Has (Index.Add i n2 v2 d2) n v = true := by
  rw [has_iff_ok] at h
  obtain ⟨d, hg⟩ := h
  obtain ⟨vm, c, hl, hc, hf⟩ := get_ok_elim i n v d hg
  obtain ⟨k, t, hm, hp, hchk⟩ := ffm_mem c vm d hf
  rw [has_iff_ok]
  by_cases hn : n2 = n
  · rw [hn] at *
    have hl2 := lookupKey_Add_found i n v2 d2 vm hl
    obtain ⟨y, hy⟩ := mem_addVersion vm v2 d2 k d hm
    obtain ⟨d3, hf3⟩ := ffm_isSome c (addVersion vm v2 d2) k y t hy hp hchk
    exact ⟨d3, get_ok_intro _ n v d3 _ c hl2 hc hf3⟩
  · have hl2 : lookupKey n (Index.Add i n2 v2 d2) = some vm := by
      rw [lookupKey_Add_other i n2 v2 d2 n (fun hh => hn hh.symm)]
      exact hl
    obtain ⟨d3, hf3⟩ := ffm_isSome c vm k d t hm hp hchk
    exact ⟨d3, get_ok_intro _ n v d3 vm c hl2 hc hf3⟩

/-! ### Merge -/

theorem mergeVM_nil (dst : Index) (name : String) : mergeVM dst name [] = dst := rfl

theorem mergeVM_cons (dst : Index) (name v dg : String) (rest : VersionMap) :
    mergeVM dst name ((v, dg) :: rest) =
      mergeVM (if Index.Has dst name v then dst else Index.Add dst name v dg) name rest := rfl

theorem merge_nil (dst : Index) : Index.Merge dst [] = dst := rfl

theorem merge_cons (dst : Index) (n : String) (vm : VersionMap) (rest : Index) :
    Index.Merge dst ((n, vm) :: rest) = Index.Merge (mergeVM dst n vm) rest := rfl

theorem has_mono_mergeVM (d : Index) (n v n2 : String) (vm : VersionMap)
    (h : Index.Has d n v = true) : Index.Has (mergeVM d n2 vm) n v = true := by
  induction vm generalizing d with
  | nil => exact h
  | cons p rest ih =>
    obtain ⟨v0, dg0⟩ := p
    rw [mergeVM_cons]
    apply ih
    by_cases hh : Index.Has d n2 v0 = true
    · simp only [hh, if_true]
      exact h
    · simp only [hh]
      simp only [Bool.not_eq_true] at hh
      simp only [hh, Bool.false_eq_true, if_false]
      exact has_mono_add d n v n2 v0 dg0 h

theorem has_mono_merge (d : Index) (n v : String) (s : Index)
    (h : Index.Has d n v = true) : Index.Has (Index.Merge d s) n v = true := by
  induction s generalizing d with
  | nil => exact h
  | cons p rest ih =>
    obtain ⟨n0, vm0⟩ := p
    rw [merge_cons]
    exact ih _ (has_mono_mergeVM d n v n0 vm0 h)

theorem lookupDigest_mergeVM_preserve (d : Index) (n v n2 : String)
    (vm : VersionMap) (h : n2 ≠ n ∨ v ∉ vmKeys vm) :
    lookupDigest (mergeVM d n2 vm) n v = lookupDigest d n v := by
  induction vm generalizing d with
  | nil => rfl
  | cons p rest ih =>
    obtain ⟨v0, dg0⟩ := p
    rw [mergeVM_cons]
    have hrest : n2 ≠ n ∨ v ∉ vmKeys rest := by
      rcases h with hn | hv
      · exact Or.inl hn
      · right
        intro hm
        exact hv (by simp [vmKeys] at hm ⊢; exact Or.inr hm)
    rw [ih _ hrest]
    by_cases hh : Index.Has d n2 v0 = true
    · simp only [hh, if_true]
    · simp only [Bool.not_eq_true] at hh
      simp only [hh, Bool.false_eq_true, if_false]
      apply lookupDigest_Add_ne
      rintro ⟨he1, he2⟩
      rcases h with hn | hv
      · exact hn he1.symm
      · exact hv (by simp [vmKeys, he2])

theorem lookupDigest_merge_preserve (d : Index) (n v : String) (s : Index)
    (h : n ∉ idxNames s) :
    lookupDigest (Index.Merge d s) n v = lookupDigest d n v := by
  induction s generalizing d with
  | nil => rfl
  | cons p rest ih =>
    obtain ⟨n0, vm0⟩ := p
    rw [merge_cons]
    have hn0 : n0 ≠ n := by
      intro he
      exact h (by simp [idxNames, he])
    have hrest : n ∉ idxNames rest := by
      intro hm
      exact h (by simp [idxNames] at hm ⊢; exact Or.inr hm)
    rw [ih _ hrest]
    exact lookupDigest_mergeVM_preserve d n v n0 vm0 (Or.inl hn0)

theorem valid_preserve_mergeVM (d : Index) (n v dg n2 : String) (t : SemVersion)
    (vm : VersionMap) (hp : NewVersion v = some t)
    (hd : lookupDigest d n v = some dg) :
    lookupDigest (mergeVM d n2 vm) n v = some dg := by
  induction vm generalizing d with
  | nil => exact hd
  | cons p rest ih =>
    obtain ⟨v0, dg0⟩ := p
    rw [mergeVM_cons]
    apply ih
    by_cases hh : Index.Has d n2 v0 = true
    · simp only [hh, if_true]
      exact hd
    · simp only [Bool.not_eq_true] at hh
      simp only [hh, Bool.false_eq_true, if_false]
      have hne : ¬(n = n2 ∧ v = v0) := by
        rintro ⟨he1, he2⟩
        rw [← he1, ← he2] at hh
        rw [valid_has d n v dg t hp hd] at hh
        exact Bool.noConfusion hh
      rw [lookupDigest_Add_ne d n2 v0 dg0 n v hne]
      exact hd

theorem valid_preserve_merge (d : Index) (n v dg : String) (t : SemVersion)
    (s : Index) (hp : NewVersion v = some t)
    (hd : lookupDigest d n v = some dg) :
    lookupDigest (Index.Merge d s) n v = some dg := by
  induction s generalizing d with
  | nil => exact hd
  | cons p rest ih =>
    obtain ⟨n0, vm0⟩ := p
    rw [merge_cons]
    exact ih _ (valid_preserve_mergeVM d n v dg n0 t vm0 hp hd)

theorem mergeVM_dichotomy (d : Index) (n v dg : String) (vm : VersionMap)
    (hwf : wfVM vm) (hm : (v, dg) ∈ vm) :
    Index.Has (mergeVM d n vm) n v = true ∨
      lookupDigest (mergeVM d n vm) n v = some dg := by
  induction vm generalizing d with
  | nil => exact absurd hm (by simp)
  | cons p rest ih =>
    obtain ⟨v0, dg0⟩ := p
    have hwf0 : v0 ∉ vmKeys rest ∧ wfVM rest := by
      unfold wfVM at hwf
      simp only [vmKeys, List.map_cons, List.nodup_cons] at hwf
      exact hwf
    rw [mergeVM_cons]
    rcases List.mem_cons.mp hm with hh | hh
    · injection hh with hh1 hh2
      subst hh1
      subst hh2
      by_cases hhas : Index.Has d n v = true
      · left
        simp only [hhas, if_true]
        exact has_mono_mergeVM d n v n rest hhas
      · right
        simp only [Bool.not_eq_true] at hhas
        simp only [hhas, Bool.false_eq_true, if_false]
        rw [lookupDigest_mergeVM_preserve _ n v n rest (Or.inr hwf0.1)]
        exact lookupDigest_Add_self d n v dg
    · exact ih _ hwf0.2 hh

theorem merge_dichotomy (d : Index) (n v dg : String) (vm : VersionMap)
    (s : Index) (hwf : wfIndex s) (hms : (n, vm) ∈ s) (hm : (v, dg) ∈ vm) :
    Index.Has (Index.Merge d s) n v = true ∨
      lookupDigest (Index.Merge d s) n v = some dg := by
  induction s generalizing d with
  | nil => exact absurd hms (by simp)
  | cons p rest ih =>
    obtain ⟨n0, vm0⟩ := p
    obtain ⟨hnd, hall⟩ := hwf
    have hnd0 : n0 ∉ idxNames rest ∧ (idxNames rest).Nodup := by
      simp only [idxNames, List.map_cons, List.nodup_cons] at hnd
      exact hnd
    rw [merge_cons]
    rcases List.mem_cons.mp hms with hh | hh
    · injection hh with hh1 hh2
      subst hh1
      subst hh2
      have hwfvm : wfVM vm := hall (n, vm) (List.mem_cons_self _ _)
      rcases mergeVM_dichotomy d n v dg vm hwfvm hm with hc | hc
      · exact Or.inl (has_mono_merge _ n v rest hc)
      · right
        rw [lookupDigest_merge_preserve _ n v rest hnd0.1]
        exact hc
    · apply ih
      · exact ⟨hnd0.2, fun q hq => hall q (List.mem_cons_of_mem _ hq)⟩
      · exact hh

theorem mergeVM_noop (d : Index) (n : String) (vm : VersionMap)
    (h : ∀ p ∈ vm, Index.Has d n p.1 = true ∨ lookupDigest d n p.1 = some p.2) :
    mergeVM d n vm = d := by
  induction vm with
  | nil => rfl
  | cons p rest ih =>
    obtain ⟨v0, dg0⟩ := p
    rw [mergeVM_cons]
    have hstep : (if Index.Has d n v0 then d else Index.Add d n v0 dg0) = d := by
      by_cases hhas : Index.Has d n v0 = true
      · simp only [hhas, if_true]
      · simp only [Bool.not_eq_true] at hhas
        simp only [hhas, Bool.false_eq_true, if_false]
        rcases h (v0, dg0) (List.mem_cons_self _ _) with hc | hc
        · rw [hhas] at hc
          exact Bool.noConfusion hc
        · exact Add_id d n v0 dg0 hc
    rw [hstep]
    exact ih fun q hq => h q (List.mem_cons_of_mem _ hq)

theorem merge_noop (d : Index) (s : Index)
    (h : ∀ q ∈ s, ∀ p ∈ q.2,
      Index.Has d q.1 p.1 = true ∨ lookupDigest d q.1 p.1 = some p.2) :
    Index.Merge d s = d := by
  induction s with
  | nil => rfl
  | cons q0 rest ih =>
    obtain ⟨n0, vm0⟩ := q0
    rw [merge_cons]
    rw [mergeVM_noop d n0 vm0 (h (n0, vm0) (List.mem_cons_self _ _))]
    exact ih fun q hq => h q (List.mem_cons_of_mem _ hq)

/-! ### Serialization round trip -/

theorem addVersion_append (acc : VersionMap) (k s : String)
    (h : k ∉ vmKeys acc) : addVersion acc k s = acc ++ [(k, s)] := by
  induction acc with
  | nil => rfl
  | cons p rest ih =>
    obtain ⟨k0, s0⟩ := p
    have hk0 : k0 ≠ k := by
      intro he
      exact h (by simp [vmKeys, he])
    have hrest : k ∉ vmKeys rest := by
      intro hm
      exact h (by simp [vmKeys] at hm ⊢; exact Or.inr hm)
    unfold addVersion
    rw [if_neg hk0, ih hrest]
    rfl

theorem setName_append (acc : Index) (n : String) (vm : VersionMap)
    (h : n ∉ idxNames acc) : setName acc n vm = acc ++ [(n, vm)] := by
  induction acc with
  | nil => rfl
  | cons p rest ih =>
    obtain ⟨n0, vm0⟩ := p
    have hn0 : n0 ≠ n := by
      intro he
      exact h (by simp [idxNames, he])
    have hrest : n ∉ idxNames rest := by
      intro hm
      exact h (by simp [idxNames] at hm ⊢; exact Or.inr hm)
    unfold setName
    rw [if_neg hn0, ih hrest]
    rfl

theorem vmOfFields_roundtrip (vm : VersionMap) :
    ∀ acc : VersionMap, wfVM vm → (∀ k ∈ vmKeys vm, k ∉ vmKeys acc) →
      vmOfFields acc (vm.map fun q => (q.1, JValue.str q.2)) = some (acc ++ vm) := by
  induction vm with
  | nil => intro acc _ _; simp [vmOfFields]
  | cons p rest ih =>
    intro acc hwf hdisj
    obtain ⟨k, s⟩ := p
    have hwf0 : k ∉ vmKeys rest ∧ wfVM rest := by
      unfold wfVM at hwf
      simp only [vmKeys, List.map_cons, List.nodup_cons] at hwf
      exact hwf
    have hka : k ∉ vmKeys acc := hdisj k (by simp [vmKeys])
    show vmOfFields (addVersion acc k s) (rest.map fun q => (q.1, JValue.str q.2))
      = some (acc ++ (k, s) :: rest)
    rw [addVersion_append acc k s hka]
    rw [ih (acc ++ [(k, s)]) hwf0.2 ?_]
    · rw [List.append_assoc]
      rfl
    · intro k2 hk2 hmem
      simp only [vmKeys, List.map_append] at hmem
      rcases List.mem_append.mp hmem with hmm | hmm
      · exact hdisj k2 (by simp [vmKeys] at hk2 ⊢; exact Or.inr hk2) hmm
      · simp [vmKeys] at hmm
        rw [hmm] at hk2
        exact hwf0.1 hk2

theorem indexOfFields_roundtrip (i : Index) :
    ∀ acc : Index, wfIndex i → (∀ n ∈ idxNames i, n ∉ idxNames acc) →
      indexOfFields acc
        (i.map fun p => (p.1, JValue.obj (p.2.map fun q => (q.1, JValue.str q.2))))
        = some (acc ++ i) := by
  induction i with
  | nil => intro acc _ _; simp [indexOfFields]
  | cons p rest ih =>
    intro acc hwf hdisj
    obtain ⟨n, vm⟩ := p
    obtain ⟨hnd, hall⟩ := hwf
    have hnd0 : n ∉ idxNames rest ∧ (idxNames rest).Nodup := by
      simp only [idxNames, List.map_cons, List.nodup_cons] at hnd
      exact hnd
    have hwfvm : wfVM vm := hall (n, vm) (List.mem_cons_self _ _)
    have hvm : vmOfFields [] (vm.map fun q => (q.1, JValue.str q.2)) = some vm := by
      have := vmOfFields_roundtrip vm [] hwfvm (by intro k _ hm; simp [vmKeys] at hm)
      simpa using this
    have hna : n ∉ idxNames acc := hdisj n (by simp [idxNames])
    show (match vmOfFields [] (vm.map fun q => (q.1, JValue.str q.2)) with
      | some vm2 => indexOfFields (setName acc n vm2)
          (rest.map fun p => (p.1, JValue.obj (p.2.map fun q => (q.1, JValue.str q.2))))
      | none => none) = some (acc ++ (n, vm) :: rest)
    rw [hvm]
    show indexOfFields (setName acc n vm)
        (rest.map fun p => (p.1, JValue.obj (p.2.map fun q => (q.1, JValue.str q.2))))
      = some (acc ++ (n, vm) :: rest)
    rw [setName_append acc n vm hna]
    rw [ih (acc ++ [(n, vm)]) ⟨hnd0.2, fun q hq => hall q (List.mem_cons_of_mem _ hq)⟩ ?_]
    · rw [List.append_assoc]
      rfl
    · intro n2 hn2 hmem
      simp only [idxNames, List.map_append] at hmem
      rcases List.mem_append.mp hmem with hmm | hmm
      · exact hdisj n2 (by simp [idxNames] at hn2 ⊢; exact Or.inr hn2) hmm
      · simp [idxNames] at hmm
        rw [hmm] at hn2
        exact hnd0.1 hn2

theorem loadIndex_marshal (i : Index) (hwf : wfIndex i) :
    loadIndex (some (marshalIndex i)) = .ok i := by
  have hro := indexOfFields_roundtrip i [] hwf (by intro n _ hm; simp [idxNames] at hm)
  unfold loadIndex marshalIndex
  show (match indexOfFields []
      (i.map fun p => (p.1, JValue.obj (p.2.map fun q => (q.1, JValue.str q.2)))) with
    | some j => Except.ok j
    | none => Except.error DecodeError.decodeFailure) = Except.ok i
  rw [hro]
  rfl

theorem ffm_exact_addVersion (vm : VersionMap) (vers digest : String)
    (ver : SemVersion) (h : NewVersion vers = some ver) :
    findFirstMatch (.cmp .eq ver) (addVersion vm vers digest) = some digest := by
  induction vm with
  | nil => simp [addVersion, findFirstMatch, h, check_exact_self]
  | cons p rest ih =>
    obtain ⟨k, dx⟩ := p
    unfold addVersion
    by_cases hk : k = vers
    · rw [if_pos hk, hk]
      unfold findFirstMatch
      simp [h, check_exact_self]
    · rw [if_neg hk]
      unfold findFirstMatch
      cases hv : NewVersion k with
      | none =>
        simp only [hv]
        exact ih
      | some t =>
        simp only [hv]
        by_cases hc : Check (.cmp .eq ver) t = true
        · exfalso
          have ht : t = ver := of_decide_eq_true hc
          exact hk (NewVersion_inj k vers ver (ht ▸ hv) h)
        · simp only [Bool.not_eq_true] at hc
          simp only [hc, Bool.false_eq_true, if_false]
          exact ih

/-! ### The claims -/

/-- C1: for every index and every valid triple (name, version, digest) — one
whose version string parses as a semantic version — after
Add(name, version, digest), Get(name, version) returns that digest with no
error. -/
theorem claim1_add_then_get (i : Index) (name version digest : String)
    (ver : SemVersion) (h : NewVersion version = some ver) :
    Index.Get (Index.Add i name version digest) name version = .ok digest := by
  have hcon := constraintOf_of_version version ver h
  cases hl : lookupKey name i with
  | none =>
    have hl2 := lookupKey_Add_new i name version digest hl
    have hf : findFirstMatch (.cmp .eq ver) [(version, digest)] = some digest := by
      have : ([(version, digest)] : VersionMap) = addVersion [] version digest := rfl
      rw [this]
      exact ffm_exact_addVersion [] version digest ver h
    exact get_ok_intro _ name version digest _ _ hl2 hcon hf
  | some vm =>
    have hl2 := lookupKey_Add_found i name version digest vm hl
    exact get_ok_intro _ name version digest _ _ hl2 hcon
      (ffm_exact_addVersion vm version digest ver h)

theorem claim1_witness :
    Index.Get (Index.Add [] "a" "1.0.0" "sha256:aaa") "a" "1.0.0"
      = .ok "sha256:aaa" :=
  claim1_add_then_get [] "a" "1.0.0" "sha256:aaa" ⟨1, 0, 0⟩ (by decide)

/-- C2 as stated is false: when the destination entry sits under a version
key that is not parseable as a constraint, Has on the destination is false,
so Merge re-adds the source entry and overwrites the destination digest.
Here the destination maps ("a", "bad") to "D1", the source maps it to "D2",
and after Merge the destination maps it to "D2". -/
theorem claim2_counterexample :
    lookupDigest [("a", [("bad", "D1")])] "a" "bad" = some "D1" ∧
    lookupDigest [("a", [("bad", "D2")])] "a" "bad" = some "D2" ∧
    lookupDigest (Index.Merge [("a", [("bad", "D1")])] [("a", [("bad", "D2")])])
      "a" "bad" = some "D2" ∧
    lookupDigest (Index.Merge [("a", [("bad", "D1")])] [("a", [("bad", "D2")])])
      "a" "bad" ≠ some "D1" :=
  ⟨by decide, by decide, by decide, by decide⟩

/-- C2 amended: Merge never overwrites a destination entry whose version
string parses as a valid semantic version — for every destination d, source
s and pair (name, version) with version a valid semantic version, the digest
d stores under (name, version) before Merge(s) is still stored after.
(Entries under version keys that do not satisfy Has, such as unparseable
keys, can be overwritten, as the counterexample shows.) -/
theorem claim2_amended_no_overwrite_of_valid (d s : Index) (n v dg : String)
    (t : SemVersion) (hp : NewVersion v = some t)
    (hd : lookupDigest d n v = some dg) :
    lookupDigest (Index.Merge d s) n v = some dg :=
  valid_preserve_merge d n v dg t s hp hd

theorem claim2_witness :
    lookupDigest (Index.Merge [("a", [("1.0.0", "D1")])] [("a", [("1.0.0", "D2")])])
      "a" "1.0.0" = some "D1" :=
  claim2_amended_no_overwrite_of_valid [("a", [("1.0.0", "D1")])]
    [("a", [("1.0.0", "D2")])] "a" "1.0.0" "D1" ⟨1, 0, 0⟩ (by decide) (by decide)

/-- C3's "in particular" clause is false for the empty version string: "" is
not parseable as a constraint, yet Get treats it as the wildcard, so a
destination that owns any parseable version for the name satisfies
Has(name, "") and the source entry ("a", "", "D") is not added by Merge. -/
theorem claim3_counterexample :
    NewConstraint "" = none ∧
    Index.Has [("a", [("1.0.0", "X")])] "a" "" = true ∧
    lookupDigest (Index.Merge [("a", [("1.0.0", "X")])] [("a", [("", "D")])])
      "a" "" = none :=
  ⟨by decide, by decide, by decide⟩

/-- C3 amended: Merge adds a source triple exactly when Has is false on the
destination at that point, and a source entry whose version string is
non-empty and not parseable as a semantic-version constraint never satisfies
Has, so it is added (re-added) on every merge. (The empty version string is
excluded: Get treats it as the wildcard, so it can satisfy Has.) -/
theorem claim3_amended_merge_adds_iff_not_has :
    (∀ d : Index, ∀ n v dg : String,
      Index.Merge d [(n, [(v, dg)])]
        = if Index.Has d n v then d else Index.Add d n v dg) ∧
    (∀ i : Index, ∀ n v : String, v ≠ "" → NewConstraint v = none →
      Index.Has i n v = false) ∧
    (∀ d s : Index, ∀ n v dg : String, ∀ vm : VersionMap, wfIndex s →
      (n, vm) ∈ s → (v, dg) ∈ vm → v ≠ "" → NewConstraint v = none →
      lookupDigest (Index.Merge d s) n v = some dg) := by
  refine ⟨fun d n v dg => rfl, has_false_invalid, ?_⟩
  intro d s n v dg vm hwf hms hm hne hc
  rcases merge_dichotomy d n v dg vm s hwf hms hm with hh | hh
  · rw [has_false_invalid (Index.Merge d s) n v hne hc] at hh
    exact Bool.noConfusion hh
  · exact hh

theorem claim3_witness :
    lookupDigest (Index.Merge [("a", [("bad", "OLD")])] [("a", [("bad", "NEW")])])
      "a" "bad" = some "NEW" :=
  claim3_amended_merge_adds_iff_not_has.2.2 [("a", [("bad", "OLD")])]
    [("a", [("bad", "NEW")])] "a" "bad" "NEW" [("bad", "NEW")]
    (by decide) (by decide) (by decide) (by decide) (by decide)

/-- C4: Merge is idempotent — merging the same source twice leaves the
destination as after merging once (the source index, being a Go map of maps,
has unique keys at both levels). -/
theorem claim4_merge_idempotent (d s : Index) (hwf : wfIndex s) :
    Index.Merge (Index.Merge d s) s = Index.Merge d s := by
  apply merge_noop
  intro q hq p hp
  exact merge_dichotomy d q.1 p.1 p.2 q.2 s hwf hq hp

theorem claim4_witness :
    Index.Merge
      (Index.Merge [("b", [("x", "1")])] [("a", [("1.0.0", "X"), ("bad", "Y")])])
      [("a", [("1.0.0", "X"), ("bad", "Y")])]
      = Index.Merge [("b", [("x", "1")])] [("a", [("1.0.0", "X"), ("bad", "Y")])] :=
  claim4_merge_idempotent [("b", [("x", "1")])]
    [("a", [("1.0.0", "X"), ("bad", "Y")])] (by decide)

/-- C5: Get(name, "") on a name that records at least one version whose
string parses as a semantic version returns, with no error, the digest of
some version recorded for that name. -/
theorem claim5_wildcard_get_ok (i : Index) (name v dg : String)
    (vm : VersionMap) (ver : SemVersion) (hl : lookupKey name i = some vm)
    (hm : (v, dg) ∈ vm) (hp : NewVersion v = some ver) :
    ∃ dg2 v2, Index.Get i name "" = .ok dg2 ∧ (v2, dg2) ∈ vm := by
  have hcon : constraintOf "" = some .wildcard := rfl
  have hchk : Check .wildcard ver = true := rfl
  obtain ⟨d2, hf⟩ := ffm_isSome .wildcard vm v dg ver hm hp hchk
  obtain ⟨k, t, hmem, hpk, hck⟩ := ffm_mem .wildcard vm d2 hf
  exact ⟨d2, k, get_ok_intro i name "" d2 vm .wildcard hl hcon hf, hmem⟩

theorem claim5_witness :
    ∃ dg2 v2, Index.Get [("a", [("junk", "J"), ("1.2.0", "B")])] "a" "" = .ok dg2 ∧
      (v2, dg2) ∈ [("junk", "J"), ("1.2.0", "B")] :=
  claim5_wildcard_get_ok [("a", [("junk", "J"), ("1.2.0", "B")])] "a" "1.2.0" "B"
    [("junk", "J"), ("1.2.0", "B")] ⟨1, 2, 0⟩ (by decide) (by decide) (by decide)

/-- C6 as stated is false: Get checks for an empty version map before
parsing the constraint, so a known name with zero recorded versions yields
NoMatchingVersion, not InvalidConstraint, even for a non-empty unparseable
constraint argument. -/
theorem claim6_counterexample :
    lookupKey "a" [("a", ([] : VersionMap))] = some [] ∧
    "x!!" ≠ "" ∧
    NewConstraint "x!!" = none ∧
    Index.Get [("a", ([] : VersionMap))] "a" "x!!" = .error .noBundleVersion ∧
    Index.Get [("a", ([] : VersionMap))] "a" "x!!" ≠ .error .invalidConstraint :=
  ⟨by decide, by decide, by decide, by decide, by decide⟩

/-- C6 amended: if the name is present with at least one recorded version
and the requested version string is non-empty and not syntactically valid as
a semantic-version constraint, Get fails with the InvalidConstraint error.
(A known name with zero recorded versions fails with NoMatchingVersion
instead, as the counterexample shows.) -/
theorem claim6_amended_invalid_constraint (i : Index) (name version : String)
    (vm : VersionMap) (hl : lookupKey name i = some vm) (hvm : vm ≠ [])
    (hne : version ≠ "") (hc : NewConstraint version = none) :
    Index.Get i name version = .error .invalidConstraint := by
  have hco : constraintOf version = none := by
    unfold constraintOf
    rw [if_neg hne]
    exact hc
  unfold Index.Get
  simp only [hl, if_neg hvm, hco]

theorem claim6_witness :
    Index.Get [("a", [("1.0.0", "X")])] "a" "not-a-valid-constraint!!"
      = .error .invalidConstraint :=
  claim6_amended_invalid_constraint [("a", [("1.0.0", "X")])] "a"
    "not-a-valid-constraint!!" [("1.0.0", "X")]
    (by decide) (by decide) (by decide) (by decide)

/-- C7: if the name has no entry in the index, Get fails with the
UnknownName error for every version argument whatsoever; the name check
comes before constraint parsing. -/
theorem claim7_unknown_name (i : Index) (name version : String)
    (h : lookupKey name i = none) :
    Index.Get i name version = .error .noBundleName := by
  unfold Index.Get
  simp only [h]

theorem claim7_witness :
    Index.Get [("b", [("1.0.0", "X")])] "missing-name" "not-a-valid-constraint!!"
      = .error .noBundleName :=
  claim7_unknown_name [("b", [("1.0.0", "X")])] "missing-name"
    "not-a-valid-constraint!!" (by decide)

/-- C8: decoding an empty byte stream (immediate end-of-input) is not an
error and yields the index with zero names. -/
theorem claim8_empty_stream :
    loadIndex none = .ok ([] : Index) ∧ idxNames [] = [] :=
  ⟨rfl, rfl⟩

/-- C9: serializing an index (the JSON value written by WriteFile) and
decoding the written output yields an index with exactly the same
(name, version) to digest entries, independent of entry order. -/
theorem claim9_roundtrip (i : Index) (hwf : wfIndex i) :
    ∃ j, loadIndex (some (marshalIndex i)) = .ok j ∧
      ∀ n v, lookupDigest j n v = lookupDigest i n v :=
  ⟨i, loadIndex_marshal i hwf, fun _ _ => rfl⟩

theorem claim9_witness :
    ∃ j, loadIndex (some (marshalIndex
        [("a", [("1.0.0", "X"), ("bad", "Y")]), ("b", [("2.0.0", "Z")])])) = .ok j ∧
      ∀ n v, lookupDigest j n v
        = lookupDigest [("a", [("1.0.0", "X"), ("bad", "Y")]), ("b", [("2.0.0", "Z")])] n v :=
  claim9_roundtrip [("a", [("1.0.0", "X"), ("bad", "Y")]), ("b", [("2.0.0", "Z")])]
    (by decide)

/-- C10: whenever Get returns a digest without error, that digest is stored
in the index under the looked-up name at some version key whose string
parses as a valid semantic version satisfying the (possibly wildcard)
constraint; Get never returns a digest stored only under an unparseable key
and never fabricates a digest. -/
theorem claim10_soundness (i : Index) (name version d : String)
    (h : Index.Get i name version = .ok d) :
    ∃ vm k t c, lookupKey name i = some vm ∧ (k, d) ∈ vm ∧
      NewVersion k = some t ∧ constraintOf version = some c ∧ Check c t = true := by
  obtain ⟨vm, c, hl, hc, hf⟩ := get_ok_elim i name version d h
  obtain ⟨k, t, hm, hp, hchk⟩ := ffm_mem c vm d hf
  exact ⟨vm, k, t, c, hl, hm, hp, hc, hchk⟩

theorem claim10_witness :
    ∃ vm k t c, lookupKey "a" [("a", [("1.2.0", "B")])] = some vm ∧
      (k, "B") ∈ vm ∧ NewVersion k = some t ∧
      constraintOf "^1.0.0" = some c ∧ Check c t = true :=
  claim10_soundness [("a", [("1.2.0", "B")])] "a" "^1.0.0" "B" (by decide)

end Repo
